import Mathlib

/-!
Shallow embedding of the retes path router (src router module: classes
Node and Router with methods add, insert, find). JavaScript strings are
modelled as lists of characters, charCodeAt as list indexing returning an
Option (none plays the role of NaN for out-of-range reads), the
prototype-free handler map as an association list with overwrite-or-append
update, and the mutable shared result tuple of find as explicit state
threading. Recursion in insert and find walks tree children found by
label or kind searches; it is expressed with an explicit fuel argument
(structural on Nat, so everything evaluates in the kernel), and fuel
sufficiency at sizeOf of the tree is proved, which is exactly the
termination of the source recursion.
-/

namespace Retes

/-- Kind constant SKIND of the source (static node). -/
def skind : Nat := 0

/-- Kind constant PKIND of the source (parameter node). -/
def pkind : Nat := 1

/-- Kind constant AKIND of the source (wildcard node). -/
def akind : Nat := 2

/-- JavaScript strict equality on possibly-NaN char codes: NaN (none) is
never equal to anything, including itself. -/
def jsLabelEq (a b : Option Char) : Bool :=
  match a, b with
  | some x, some y => x == y
  | _, _ => false

/-- Longest common prefix length of two character lists, as computed by
the while loops in insert and find. -/
def commonLen : List Char → List Char → Nat
  | a :: as, b :: bs => if a = b then commonLen as bs + 1 else 0
  | _, _ => 0

/-- The scan of add that skips a parameter name: starting at index i it
advances while i is below the captured path length and the character at i
is not a slash (an out-of-range read gives NaN, which is not a slash).
The first argument is the remaining iteration budget pathLength - i,
which makes the recursion structural. -/
def scanFrom : Nat → List Char → Nat → Nat
  | 0, _, i => i
  | fuel+1, path, i => if path[i]? ≠ some '/' then scanFrom fuel path (i+1) else i

/-- One captured value in the shared values array of find: either a raw
captured string, the JavaScript undefined, or the name-value record that
the terminal step of find writes over the raw capture. -/
inductive Val where
  | raw (s : String)
  | missing
  | bound (name : String) (value : Val)
deriving DecidableEq, Repr

/-- JavaScript array read with undefined for out-of-range indices. -/
def jsGetVal (vs : List Val) (i : Nat) : Val := (vs[i]?).getD .missing

/-- JavaScript array index assignment: overwrite in range, append at the
length, pad with undefined beyond it. -/
def jsSetVal (vs : List Val) (i : Nat) (x : Val) : List Val :=
  if i < vs.length then vs.set i x
  else vs ++ List.replicate (i - vs.length) .missing ++ [x]

/-- One entry of the method map of a node: the source stores an object
with fields handler and names, either of which can be undefined. -/
structure Entry (H : Type) where
  handler : Option H
  names : Option (List String)
deriving DecidableEq, Repr

/-- A trie node: label caches charCodeAt 0 of the prefix at construction
time (none for an empty prefix, playing NaN), pfx is the prefix string,
children the ordered child list, kind one of skind, pkind, akind, and map
the method-indexed handler entries. -/
inductive Node (H : Type) where
  | mk (label : Option Char) (pfx : List Char) (children : List (Node H))
      (kind : Nat) (map : List (String × Entry H))

variable {H : Type}

def Node.label : Node H → Option Char
  | .mk l _ _ _ _ => l

def Node.pfx : Node H → List Char
  | .mk _ p _ _ _ => p

def Node.children : Node H → List (Node H)
  | .mk _ _ cs _ _ => cs

def Node.kind : Node H → Nat
  | .mk _ _ _ k _ => k

def Node.map : Node H → List (String × Entry H)
  | .mk _ _ _ _ m => m

mutual

/-- Number of nodes of a tree, the measure that bounds the recursion depth
of insert and find and hence the fuel they need. -/
def Node.size : Node H → Nat
  | .mk _ _ cs _ _ => 1 + Node.sizeL cs

/-- Total node count of a child list. -/
def Node.sizeL : List (Node H) → Nat
  | [] => 0
  | c :: cs => Node.size c + Node.sizeL cs

end

/-- The Node constructor of the source: label is the first character of
the prefix. -/
def newNode (pfx : List Char) (cs : List (Node H)) (kind : Nat)
    (map : List (String × Entry H)) : Node H :=
  .mk pfx[0]? pfx cs kind map

/-- The fresh router tree: new Node() with prefix the slash, no children,
static kind, empty map. -/
def Router.empty : Node H := .mk (some '/') ['/'] [] skind []

/-- Property update map[method] = entry on the prototype-free object:
overwrite an existing key in place, otherwise append. -/
def jsMapSet (m : List (String × Entry H)) (k : String) (v : Entry H) :
    List (String × Entry H) :=
  match m with
  | [] => [(k, v)]
  | (k', v') :: rest => if k' = k then (k, v) :: rest else (k', v') :: jsMapSet rest k v

/-- Property read map[method], the body of Node.findHandler. -/
def mapLookup (m : List (String × Entry H)) (k : String) : Option (Entry H) :=
  (m.find? (fun p => p.1 == k)).map (fun p => p.2)

/-- Node.findChild: first child with the given label (strict equality,
NaN never matches) and the given kind. -/
def findChild (cs : List (Node H)) (lbl : Option Char) (k : Nat) : Option (Node H) :=
  cs.find? (fun c => jsLabelEq lbl c.label && c.kind == k)

/-- Node.findChildByLabel: first child with the given label. -/
def findByLabel (cs : List (Node H)) (lbl : Option Char) : Option (Node H) :=
  cs.find? (fun c => jsLabelEq lbl c.label)

/-- Node.findChildByKind: first child with the given kind. -/
def findByKind (cs : List (Node H)) (k : Nat) : Option (Node H) :=
  cs.find? (fun c => c.kind == k)

/-- In-place mutation of the first child matching a label, the functional
rendering of node = child; continue in the insert loop. -/
def replaceFirstLbl (cs : List (Node H)) (lbl : Option Char) (c' : Node H) :
    List (Node H) :=
  match cs with
  | [] => []
  | c :: rest =>
    if jsLabelEq lbl c.label then c' :: rest else c :: replaceFirstLbl rest lbl c'

/-- One iteration of the while loop of Router.insert at the current node,
with the move to the matching child (node = child; continue) abstracted as
the function recurse. The three branches are the split of the current
node, the descent or append below it, and the full-match handler
attachment. -/
def insertStep (method : String) (path : List Char) (kind : Nat)
    (names : Option (List String)) (handler : Option H) (node : Node H)
    (recurse : List Char → Node H → Option (Node H)) : Option (Node H) :=
  match node with
  | .mk lbl pfx cs k mp =>
    let len := commonLen path pfx
    if len < pfx.length then
      let child := newNode (pfx.drop len) cs k mp
      if len = path.length then
        some (.mk pfx[0]? (pfx.take len) [child] kind
          (jsMapSet [] method ⟨handler, names⟩))
      else
        let fresh := newNode (path.drop len) [] kind
          (jsMapSet [] method ⟨handler, names⟩)
        some (.mk pfx[0]? (pfx.take len) [child, fresh] skind [])
    else if len < path.length then
      let path' := path.drop len
      match findByLabel cs path'[0]? with
      | some c =>
        match recurse path' c with
        | none => none
        | some c' => some (.mk lbl pfx (replaceFirstLbl cs path'[0]? c') k mp)
      | none =>
        let fresh := newNode path' [] kind (jsMapSet [] method ⟨handler, names⟩)
        some (.mk lbl pfx (cs ++ [fresh]) k mp)
    else
      match handler with
      | some _ => some (.mk lbl pfx cs k (jsMapSet mp method ⟨handler, names⟩))
      | none => some node

/-- Router.insert with explicit fuel. Returns none only when the fuel runs
out, which never happens from fuel = size of the tree on. -/
def insertFuel : Nat → String → List Char → Nat → Option (List String) →
    Option H → Node H → Option (Node H)
  | 0, _, _, _, _, _, _ => none
  | fuel+1, method, path, kind, names, handler, node =>
    insertStep method path kind names handler node
      (fun p' c => insertFuel fuel method p' kind names handler c)

/-- Router.insert at sufficient fuel. -/
def insertT (method : String) (path : List Char) (kind : Nat)
    (names : Option (List String)) (handler : Option H) (t : Node H) : Node H :=
  (insertFuel (Node.size t) method path kind names handler t).getD t

/-- The registration loop of Router.add with explicit fuel. pathLength is
the length captured once at entry, which the source never refreshes after
truncating the path, i is the loop index, path the current (possibly
truncated) pattern and params the accumulated parameter names. -/
def addFuel (method : String) (handler : H) (pathLength : Nat) :
    Nat → Nat → List Char → List String → Node H → Option (Node H)
  | 0, _, _, _, _ => none
  | fuel+1, i, path, params, tree =>
    if i < pathLength then
      if path[i]? = some ':' then
        let j := i + 1
        let tree1 := insertT method (path.take i) skind none none tree
        let iEnd := scanFrom (pathLength - i) path i
        let params1 := params ++ [String.mk ((path.take iEnd).drop j)]
        let path1 := path.take j ++ path.drop iEnd
        if j = pathLength then
          some (insertT method (path1.take j) pkind (some params1) (some handler) tree1)
        else
          let tree2 := insertT method (path1.take j) pkind (some params1) none tree1
          addFuel method handler pathLength fuel (j+1) path1 params1 tree2
      else if path[i]? = some '*' then
        let tree1 := insertT method (path.take i) skind none none tree
        let params1 := params ++ ["*"]
        some (insertT method (path.take pathLength) akind (some params1)
          (some handler) tree1)
      else
        addFuel method handler pathLength fuel (i+1) path params tree
    else
      some (insertT method path skind (some params) (some handler) tree)

/-- Router.add. The fuel pathLength + 1 dominates the loop iteration
count, as proved below. -/
def Router.add (t : Node H) (method path : String) (handler : H) : Node H :=
  (addFuel method handler path.length (path.length + 1) 0 path.data [] t).getD t

/-- The terminal step of find at a node whose prefix is exhausted: look
the method up, expose the handler if the entry and its handler field are
present, and when a names list is present overwrite each captured value
with its name-value record. -/
def transformVals : List String → Nat → List Val → List Val
  | [], _, vs => vs
  | nm :: rest, i, vs => transformVals rest (i+1) (jsSetVal vs i (.bound nm (jsGetVal vs i)))

def findTerminal (e : Option (Entry H)) (values : List Val) : Option H × List Val :=
  match e with
  | none => (none, values)
  | some entry =>
    match entry.handler with
    | none => (none, values)
    | some h =>
      match entry.names with
      | none => (some h, values)
      | some names => (some h, transformVals names 0 values)

/-- Sequencing of one lookup attempt with the rest of find: a none
attempt propagates fuel exhaustion, a successful attempt (handler slot
filled) returns immediately as the source does with its early return, and
a failed attempt hands its possibly mutated values array to the
continuation. -/
def seqAttempt (a : Option (Option H × List Val))
    (rest : List Val → Option (Option H × List Val)) : Option (Option H × List Val) :=
  match a with
  | none => none
  | some r => if r.1.isSome then some r else rest r.2

/-- The backtracking cleanup after a failed parameter attempt: the source
pops the captured value off the shared array (n-- and values.pop). -/
def popFail (a : Option (Option H × List Val)) : Option (Option H × List Val) :=
  match a with
  | none => none
  | some r => if r.1.isSome then some r else some (none, r.2.dropLast)

/-- Router.find with explicit fuel: none only on fuel exhaustion. The
shared mutable result tuple of the source is threaded explicitly: the
first component is the handler slot, the second the shared values array.
The static child is attempted first, then, only when the whole node
prefix was consumed, the parameter child (whose capture is popped on
failure) and then the wildcard child (whose capture is not popped). -/
def findFuel : Nat → String → Node H → List Char → Nat → List Val →
    Option (Option H × List Val)
  | 0, _, _, _, _, _ => none
  | fuel+1, method, cn, path, n, values =>
    match cn with
    | .mk _ pfx cs _ mp =>
      if path.length = 0 ∨ path = pfx then
        some (findTerminal (mapLookup mp method) values)
      else
        let l := commonLen path pfx
        let path1 := if l = pfx.length then path.drop l else path
        seqAttempt
          (match findChild cs path1[0]? skind with
           | some c => findFuel fuel method c path1 n values
           | none => some ((none : Option H), values))
          (fun vs1 =>
            if l ≠ pfx.length then some (none, vs1)
            else
              seqAttempt
                (match findByKind cs pkind with
                 | some c =>
                   let i := List.findIdx (fun ch => ch == '/') path1
                   popFail (findFuel fuel method c (path1.drop i) (n+1)
                     (jsSetVal vs1 n (.raw (String.mk (path1.take i)))))
                 | none => some ((none : Option H), vs1))
                (fun vs3 =>
                  match findByKind cs akind with
                  | some c => findFuel fuel method c [] n (jsSetVal vs3 n (.raw (String.mk path1)))
                  | none => some ((none : Option H), vs3)))

/-- Router.find at sufficient fuel, from the root with index 0 and an
empty values array, as the default arguments of the source provide. -/
def Router.find (t : Node H) (method path : String) : Option H × List Val :=
  (findFuel (Node.size t) method t path.data 0 []).getD (none, [])

/-! Basic lemmas about the size measure and child searches. -/

theorem Node.size_pos (n : Node H) : 0 < Node.size n := by
  cases n with
  | mk l p cs k m => simp [Node.size]

theorem Node.sizeL_le_of_mem {c : Node H} {cs : List (Node H)} (h : c ∈ cs) :
    Node.size c ≤ Node.sizeL cs := by
  induction cs with
  | nil => cases h
  | cons a as ih =>
    cases h with
    | head => simp [Node.sizeL]
    | tail _ hm =>
      have := ih hm
      simp only [Node.sizeL]
      omega

theorem findChild_mem {cs : List (Node H)} {lbl : Option Char} {k : Nat} {c : Node H}
    (h : findChild cs lbl k = some c) : c ∈ cs := by
  unfold findChild at h
  exact List.mem_of_find?_eq_some h

theorem findByLabel_mem {cs : List (Node H)} {lbl : Option Char} {c : Node H}
    (h : findByLabel cs lbl = some c) : c ∈ cs := by
  unfold findByLabel at h
  exact List.mem_of_find?_eq_some h

theorem findByKind_mem {cs : List (Node H)} {k : Nat} {c : Node H}
    (h : findByKind cs k = some c) : c ∈ cs := by
  unfold findByKind at h
  exact List.mem_of_find?_eq_some h

theorem seqAttempt_isSome {a : Option (Option H × List Val)}
    {rest : List Val → Option (Option H × List Val)}
    (ha : a.isSome) (hrest : ∀ vs, (rest vs).isSome) : (seqAttempt a rest).isSome := by
  unfold seqAttempt
  cases a with
  | none => simp at ha
  | some r =>
    by_cases h : r.1.isSome
    · simp [h]
    · simp [h]
      exact hrest r.2

theorem popFail_isSome {a : Option (Option H × List Val)} (ha : a.isSome) :
    (popFail a).isSome := by
  unfold popFail
  cases a with
  | none => simp at ha
  | some r =>
    by_cases h : r.1.isSome
    · simp [h]
    · simp [h]

/-- Fuel sufficiency for find: with fuel at least the node count of the
subtree, find never exhausts its fuel. This is the termination argument
of the source recursion: every recursive call moves to a proper child. -/
theorem findFuel_isSome :
    ∀ (fuel : Nat) (cn : Node H), Node.size cn ≤ fuel →
    ∀ (method : String) (path : List Char) (n : Nat) (vs : List Val),
    (findFuel fuel method cn path n vs).isSome := by
  intro fuel
  induction fuel with
  | zero =>
    intro cn hsz
    have := Node.size_pos cn
    omega
  | succ f ih =>
    intro cn hsz method path n vs
    match cn with
    | .mk l p cs k m =>
      have hcs : Node.sizeL cs ≤ f := by
        simp only [Node.size] at hsz
        omega
      have hchild : ∀ c : Node H, c ∈ cs → Node.size c ≤ f := by
        intro c hc
        have := Node.sizeL_le_of_mem hc
        omega
      simp only [findFuel]
      split
      · simp
      · apply seqAttempt_isSome
        · cases hfc : findChild cs _ skind with
          | none => simp
          | some c => exact ih c (hchild c (findChild_mem hfc)) _ _ _ _
        · intro vs1
          split
          · simp
          · apply seqAttempt_isSome
            · cases hfp : findByKind cs pkind with
              | none => simp
              | some c =>
                apply popFail_isSome
                exact ih c (hchild c (findByKind_mem hfp)) _ _ _ _
            · intro vs3
              cases hfa : findByKind cs akind with
              | none => simp
              | some c => exact ih c (hchild c (findByKind_mem hfa)) _ _ _ _

/-- C6. find is total: for every tree (hence for any tree built by any
sequence of add calls), every method and every path string including the
empty string, strings without a leading slash and strings of only the
wildcard marker, the fueled find at fuel equal to the node count of the
tree completes (it does not run out of fuel, i.e. the source recursion
terminates) and returns exactly the pair that Router.find returns; a
result is always produced and there is no error path. -/
theorem claim6_find_total (r : Node H) (method path : String) :
    findFuel (Node.size r) method r path.data 0 [] = some (Router.find r method path) := by
  have h := findFuel_isSome (Node.size r) r (Nat.le_refl _) method path.data 0 []
  obtain ⟨x, hx⟩ := Option.isSome_iff_exists.mp h
  rw [hx]
  unfold Router.find
  rw [hx]
  rfl

/-! Concrete routers used by the claim instances. Handlers are natural
number tokens; the router treats them as opaque. -/

/-- Both GET /users/:id and GET /users/admin, parameter route first. -/
def routerUsersA : Node Nat :=
  Router.add (Router.add Router.empty "GET" "/users/:id" 1) "GET" "/users/admin" 2

/-- Both GET /users/:id and GET /users/admin, literal route first. -/
def routerUsersB : Node Nat :=
  Router.add (Router.add Router.empty "GET" "/users/admin" 2) "GET" "/users/:id" 1

/-- GET /a/:x/fixed and GET /a/b/other. -/
def routerBacktrack : Node Nat :=
  Router.add (Router.add Router.empty "GET" "/a/:x/fixed" 1) "GET" "/a/b/other" 2

/-- GET /files/* only. -/
def routerFiles : Node Nat := Router.add Router.empty "GET" "/files/*" 1

/-- GET /a/:x/b/:y only. -/
def routerPairs : Node Nat := Router.add Router.empty "GET" "/a/:x/b/:y" 1

/-- GET /widget only. -/
def routerWidget : Node Nat := Router.add Router.empty "GET" "/widget" 1

/-- GET /a/:x/b only, used to show the pop of a failed parameter capture. -/
def routerPop : Node Nat := Router.add Router.empty "GET" "/a/:x/b" 1

/-- C1. Static precedence over parameter: with GET /users/:id and
GET /users/admin both registered (in either order), looking up
GET /users/admin returns the literal route handler 2 with empty bindings,
and GET /users/7 returns the parameter route handler 1 with the single
binding id = 7. -/
theorem claim1_static_precedence :
    Router.find routerUsersA "GET" "/users/admin" = (some 2, []) ∧
    Router.find routerUsersA "GET" "/users/7" = (some 1, [.bound "id" (.raw "7")]) ∧
    Router.find routerUsersB "GET" "/users/admin" = (some 2, []) ∧
    Router.find routerUsersB "GET" "/users/7" = (some 1, [.bound "id" (.raw "7")]) := by
  refine ⟨?_, ?_, ?_, ?_⟩ <;> decide

/-- C2. Backtracking: with GET /a/:x/fixed and GET /a/b/other registered,
GET /a/b/fixed succeeds through the parameter branch with binding x = b
after the static branch through the literal b prefix dead-ends. -/
theorem claim2_backtracking :
    Router.find routerBacktrack "GET" "/a/b/fixed" = (some 1, [.bound "x" (.raw "b")]) := by
  decide

/-- C3. Wildcard captures the whole remainder including slashes under the
name star: GET /files/* registered, GET /files/a/b/c.txt returns the
handler with the single binding star = a/b/c.txt. -/
theorem claim3_wildcard_remainder :
    Router.find routerFiles "GET" "/files/a/b/c.txt" = (some 1, [.bound "*" (.raw "a/b/c.txt")]) := by
  decide

/-- C4. Ordered multiple captures: GET /a/:x/b/:y registered, GET /a/1/b/2
returns bindings x = 1 then y = 2 in pattern order. -/
theorem claim4_ordered_bindings :
    Router.find routerPairs "GET" "/a/1/b/2" =
      (some 1, [.bound "x" (.raw "1"), .bound "y" (.raw "2")]) := by
  decide

/-- C5. Method isolation: only GET /widget registered; a POST lookup of
the same existing path yields no match through the return value, with no
error and empty bindings, while the GET lookup succeeds. -/
theorem claim5_method_isolation :
    Router.find routerWidget "POST" "/widget" = (none, []) ∧
    Router.find routerWidget "GET" "/widget" = (some 1, []) := by
  exact ⟨by decide, by decide⟩

/-- C10. A no-match result does not always carry an empty bindings list:
with only GET /files/* registered, a POST lookup descends into the
wildcard child, finds no handler for POST, and returns an absent handler
together with the raw captured remainder still in the values list; by
contrast a failed parameter attempt pops its capture, as the lookup on
the router with only GET /a/:x/b shows. -/
theorem claim10_wildcard_leftover :
    Router.find routerFiles "POST" "/files/a/b/c.txt" = (none, [.raw "a/b/c.txt"]) ∧
    Router.find routerPop "GET" "/a/q/c" = (none, []) := by
  exact ⟨by decide, by decide⟩

/-- C8 counterexample. The claim says add detects malformed patterns and
aborts the registration. The source performs no validation at all: an
empty pattern is accepted, the tree is mutated and the handler becomes
reachable, so the registration was not aborted. -/
theorem claim8_counterexample :
    Router.find (Router.add Router.empty "GET" "" 7) "GET" "" = (some 7, []) := by
  decide

/-- C8 amended. add performs no validation: an empty pattern, a pattern
without a leading slash, and a colon immediately followed by a slash
(empty parameter name) are all silently accepted and registered; in the
last case the captured segment is bound to the empty name. -/
theorem claim8_amended :
    Router.find (Router.add Router.empty "GET" "" 7) "GET" "" = (some 7, []) ∧
    Router.find (Router.add Router.empty "GET" "foo" 8) "GET" "foo" = (some 8, []) ∧
    Router.find (Router.add Router.empty "GET" "/x/:/y" 9) "GET" "/x/abc/y" =
      (some 9, [.bound "" (.raw "abc")]) := by
  refine ⟨?_, ?_, ?_⟩ <;> decide

/-- C7. The split branch of insert: when the longest common prefix length
len of the inserted path and the node prefix is shorter than the prefix,
the node is split. A new child keeps the unmatched old-prefix suffix
together with the old children, kind and handler map; the node itself is
truncated to the common prefix (label recomputed from the old prefix). If
the inserted path is exhausted at the split point the new handler entry
and kind are attached to the truncated node, which keeps the single
child; otherwise the truncated node is demoted to static kind with an
empty map and a second, fresh child is appended carrying the remaining
inserted suffix, the requested kind and the handler entry. -/
theorem claim7_insert_split (fuel : Nat) (method : String) (path : List Char)
    (kind : Nat) (names : Option (List String)) (handler : Option H)
    (lbl : Option Char) (p : List Char) (cs : List (Node H)) (k : Nat)
    (mp : List (String × Entry H))
    (hsplit : commonLen path p < p.length) :
    insertFuel (fuel+1) method path kind names handler (Node.mk lbl p cs k mp) =
      some (if commonLen path p = path.length
        then Node.mk p[0]? (p.take (commonLen path p))
          [newNode (p.drop (commonLen path p)) cs k mp] kind
          [(method, ⟨handler, names⟩)]
        else Node.mk p[0]? (p.take (commonLen path p))
          [newNode (p.drop (commonLen path p)) cs k mp,
           newNode (path.drop (commonLen path p)) [] kind
             [(method, ⟨handler, names⟩)]]
          skind []) := by
  simp only [insertFuel, insertStep]
  rw [if_pos hsplit]
  by_cases h : commonLen path p = path.length
  · rw [if_pos h, if_pos h]
    rfl
  · rw [if_neg h, if_neg h]
    rfl

/-- Witness for the split theorem at a concrete input: inserting the path
/utils into a node with prefix /users/ splits at the common prefix /u. -/
theorem claim7_insert_split_witness :
    commonLen "/utils".data "/users/".data < "/users/".data.length ∧
    insertFuel 1 "GET" "/utils".data skind none (some 1)
        (Node.mk (some '/') "/users/".data ([] : List (Node Nat)) skind []) =
      some (if commonLen "/utils".data "/users/".data = "/utils".data.length
        then Node.mk "/users/".data[0]? ("/users/".data.take (commonLen "/utils".data "/users/".data))
          [newNode ("/users/".data.drop (commonLen "/utils".data "/users/".data)) [] skind []] skind
          [("GET", ⟨some 1, none⟩)]
        else Node.mk "/users/".data[0]? ("/users/".data.take (commonLen "/utils".data "/users/".data))
          [newNode ("/users/".data.drop (commonLen "/utils".data "/users/".data)) [] skind [],
           newNode ("/utils".data.drop (commonLen "/utils".data "/users/".data)) [] skind
             [("GET", ⟨some 1, none⟩)]]
          skind []) :=
  ⟨by decide, claim7_insert_split 0 "GET" "/utils".data skind none (some 1)
    (some '/') "/users/".data [] skind [] (by decide)⟩

/-! Fuel sufficiency and stability for insert, and a fuel-free unfolding
equation for insertT. -/

theorem Node.size_child_lt {c : Node H} {n : Node H} (h : c ∈ n.children) :
    Node.size c < Node.size n := by
  cases n with
  | mk lbl p cs k mp =>
    simp only [Node.children] at h
    have := Node.sizeL_le_of_mem h
    simp only [Node.size]
    omega

/-- Definitional unfolding of one fuel step of insert. -/
theorem insertFuel_succ_eq (f : Nat) (method : String) (path : List Char)
    (kind : Nat) (names : Option (List String)) (handler : Option H)
    (node : Node H) :
    insertFuel (f+1) method path kind names handler node =
      insertStep method path kind names handler node
        (fun p' c => insertFuel f method p' kind names handler c) := rfl

/-- The step of insert only consults the recursion on children of the
current node, so pointwise equal recursions give the same step. -/
theorem insertStep_congr (method : String) (path : List Char) (kind : Nat)
    (names : Option (List String)) (handler : Option H) (node : Node H)
    (r1 r2 : List Char → Node H → Option (Node H))
    (h : ∀ p' c, c ∈ node.children → r1 p' c = r2 p' c) :
    insertStep method path kind names handler node r1 =
      insertStep method path kind names handler node r2 := by
  match node with
  | .mk lbl p cs k mp =>
    simp only [insertStep]
    split
    · rfl
    · split
      · cases hf : findByLabel cs (path.drop (commonLen path p))[0]? with
        | none => rfl
        | some c => simp only [h _ c (findByLabel_mem hf)]
      · rfl

theorem insertFuel_isSome :
    ∀ (fuel : Nat) (node : Node H), Node.size node ≤ fuel →
    ∀ (method : String) (path : List Char) (kind : Nat)
      (names : Option (List String)) (handler : Option H),
    (insertFuel fuel method path kind names handler node).isSome := by
  intro fuel
  induction fuel with
  | zero =>
    intro node hsz
    have := Node.size_pos node
    omega
  | succ f ih =>
    intro node hsz method path kind names handler
    match node with
    | .mk lbl p cs k mp =>
      have hcs : Node.sizeL cs ≤ f := by
        simp only [Node.size] at hsz
        omega
      simp only [insertFuel, insertStep]
      split
      · split <;> simp
      · split
        · cases hf : findByLabel cs (path.drop (commonLen path p))[0]? with
          | none => simp
          | some c =>
            have hc : Node.size c ≤ f :=
              le_trans (Node.sizeL_le_of_mem (findByLabel_mem hf)) hcs
            obtain ⟨c', hc'⟩ := Option.isSome_iff_exists.mp
              (ih c hc method (path.drop (commonLen path p)) kind names handler)
            simp [hc']
        · cases handler <;> simp

theorem insertFuel_succ :
    ∀ (f : Nat) (node : Node H), Node.size node ≤ f →
    ∀ (method : String) (path : List Char) (kind : Nat)
      (names : Option (List String)) (handler : Option H),
    insertFuel (f+1) method path kind names handler node =
      insertFuel f method path kind names handler node := by
  intro f
  induction f with
  | zero =>
    intro node hsz
    have := Node.size_pos node
    omega
  | succ f ih =>
    intro node hsz method path kind names handler
    rw [insertFuel_succ_eq (f+1) method path kind names handler node,
        insertFuel_succ_eq f method path kind names handler node]
    apply insertStep_congr
    intro p' c hc
    have := Node.size_child_lt hc
    exact ih c (by omega) method p' kind names handler

theorem insertFuel_stable :
    ∀ (f : Nat) (node : Node H), Node.size node ≤ f →
    ∀ (method : String) (path : List Char) (kind : Nat)
      (names : Option (List String)) (handler : Option H),
    insertFuel f method path kind names handler node =
      insertFuel (Node.size node) method path kind names handler node := by
  intro f
  induction f with
  | zero =>
    intro node hsz
    have := Node.size_pos node
    omega
  | succ f ih =>
    intro node hsz method path kind names handler
    by_cases h : Node.size node ≤ f
    · rw [insertFuel_succ f node h, ih node h]
    · have : Node.size node = f + 1 := by omega
      rw [this]

/-- The fueled insert at exactly the size of the tree computes insertT. -/
theorem insertFuel_size_eq (method : String) (path : List Char) (kind : Nat)
    (names : Option (List String)) (handler : Option H) (t : Node H) :
    insertFuel (Node.size t) method path kind names handler t =
      some (insertT method path kind names handler t) := by
  obtain ⟨x, hx⟩ := Option.isSome_iff_exists.mp
    (insertFuel_isSome (Node.size t) t (Nat.le_refl _) method path kind names handler)
  rw [hx]
  unfold insertT
  rw [hx]
  rfl

/-- Fuel-free unfolding of insertT, the walking step of Router.insert. -/
theorem insertT_eq (method : String) (path : List Char) (kind : Nat)
    (names : Option (List String)) (handler : Option H)
    (lbl : Option Char) (p : List Char) (cs : List (Node H)) (k : Nat)
    (mp : List (String × Entry H)) :
    insertT method path kind names handler (.mk lbl p cs k mp) =
      (if commonLen path p < p.length then
        (if commonLen path p = path.length then
          Node.mk p[0]? (p.take (commonLen path p))
            [newNode (p.drop (commonLen path p)) cs k mp] kind
            [(method, ⟨handler, names⟩)]
        else
          Node.mk p[0]? (p.take (commonLen path p))
            [newNode (p.drop (commonLen path p)) cs k mp,
             newNode (path.drop (commonLen path p)) [] kind
               [(method, ⟨handler, names⟩)]] skind [])
      else if commonLen path p < path.length then
        (match findByLabel cs (path.drop (commonLen path p))[0]? with
         | some c =>
           Node.mk lbl p
             (replaceFirstLbl cs (path.drop (commonLen path p))[0]?
               (insertT method (path.drop (commonLen path p)) kind names handler c)) k mp
         | none =>
           Node.mk lbl p
             (cs ++ [newNode (path.drop (commonLen path p)) [] kind
               [(method, ⟨handler, names⟩)]]) k mp)
      else
        (match handler with
         | some _ => Node.mk lbl p cs k (jsMapSet mp method ⟨handler, names⟩)
         | none => Node.mk lbl p cs k mp)) := by
  unfold insertT
  simp only [Node.size]
  rw [Nat.add_comm 1 (Node.sizeL cs)]
  rw [insertFuel_succ_eq (Node.sizeL cs)]
  simp only [insertStep]
  by_cases h1 : commonLen path p < p.length
  · simp only [if_pos h1]
    by_cases h2 : commonLen path p = path.length
    · simp only [if_pos h2]
      rfl
    · simp only [if_neg h2]
      rfl
  · simp only [if_neg h1]
    by_cases h2 : commonLen path p < path.length
    · simp only [if_pos h2]
      split
      next c hf =>
        have hc : Node.size c ≤ Node.sizeL cs := Node.sizeL_le_of_mem (findByLabel_mem hf)
        rw [insertFuel_stable (Node.sizeL cs) c hc, insertFuel_size_eq]
        rfl
      next hf => rfl
    · simp only [if_neg h2]
      cases handler <;> rfl


/-! Handler membership: which handlers are stored in a tree, which insert
can introduce, and which find can return. -/

/-- The handler h occurs somewhere in the tree: in a map entry of the
root, or anywhere in a child subtree. -/
inductive HandlerIn (h : H) : Node H → Prop where
  | here {lbl : Option Char} {p : List Char} {cs : List (Node H)} {k : Nat}
      {mp : List (String × Entry H)} {s : String} {e : Entry H} :
      (s, e) ∈ mp → e.handler = some h → HandlerIn h (.mk lbl p cs k mp)
  | child {lbl : Option Char} {p : List Char} {cs : List (Node H)} {k : Nat}
      {mp : List (String × Entry H)} {c : Node H} :
      c ∈ cs → HandlerIn h c → HandlerIn h (.mk lbl p cs k mp)

theorem handlerIn_empty (h : H) : ¬ HandlerIn h (Router.empty : Node H) := by
  intro hc
  cases hc with
  | here hm he => cases hm
  | child hc hsub => cases hc

/-- Membership only depends on the children and the map. -/
theorem handlerIn_congr {h : H} {l1 l2 : Option Char} {p1 p2 : List Char}
    {cs : List (Node H)} {k1 k2 : Nat} {mp : List (String × Entry H)}
    (hin : HandlerIn h (.mk l1 p1 cs k1 mp)) : HandlerIn h (.mk l2 p2 cs k2 mp) := by
  cases hin with
  | here hm he => exact .here hm he
  | child hc hsub => exact .child hc hsub

theorem mem_jsMapSet {m : List (String × Entry H)} {k : String} {v : Entry H}
    {x : String × Entry H} (hx : x ∈ jsMapSet m k v) : x ∈ m ∨ x = (k, v) := by
  induction m with
  | nil =>
    simp only [jsMapSet] at hx
    simp at hx
    right
    exact hx
  | cons a as ih =>
    simp only [jsMapSet] at hx
    split at hx
    · cases hx with
      | head => right; rfl
      | tail _ hm => left; exact List.mem_cons_of_mem _ hm
    · cases hx with
      | head => left; exact List.mem_cons_self _ _
      | tail _ hm =>
        cases ih hm with
        | inl hh => left; exact List.mem_cons_of_mem _ hh
        | inr hh => right; exact hh

theorem mem_replaceFirstLbl {cs : List (Node H)} {lbl : Option Char} {x : Node H}
    {c : Node H} (h : c ∈ replaceFirstLbl cs lbl x) : c ∈ cs ∨ c = x := by
  induction cs with
  | nil => simp [replaceFirstLbl] at h
  | cons a as ih =>
    simp only [replaceFirstLbl] at h
    split at h
    · cases h with
      | head => right; rfl
      | tail _ hm => left; exact List.mem_cons_of_mem _ hm
    · cases h with
      | head => left; exact List.mem_cons_self _ _
      | tail _ hm =>
        cases ih hm with
        | inl hh => left; exact List.mem_cons_of_mem _ hh
        | inr hh => right; exact hh

theorem mapLookup_mem {m : List (String × Entry H)} {s : String} {e : Entry H}
    (h : mapLookup m s = some e) : ∃ s2, (s2, e) ∈ m := by
  unfold mapLookup at h
  cases hf : m.find? (fun pr => pr.1 == s) with
  | none => rw [hf] at h; cases h
  | some pr =>
    rw [hf] at h
    simp at h
    refine ⟨pr.1, ?_⟩
    rw [← h]
    exact List.mem_of_find?_eq_some hf

theorem findTerminal_handler {e : Option (Entry H)} {vs vs2 : List Val} {h : H}
    (hr : findTerminal e vs = (some h, vs2)) :
    ∃ en, e = some en ∧ en.handler = some h := by
  unfold findTerminal at hr
  split at hr
  · simp at hr
  next en =>
    split at hr
    · simp at hr
    next h0 hh =>
      split at hr <;> simp at hr <;> exact ⟨en, rfl, by rw [hh, hr.1]⟩

theorem seqAttempt_eq_some {a : Option (Option H × List Val)}
    {rest : List Val → Option (Option H × List Val)} {r : Option H × List Val}
    (hr : seqAttempt a rest = some r) (_hs : r.1.isSome) :
    a = some r ∨ ∃ vs1, a = some (none, vs1) ∧ rest vs1 = some r := by
  unfold seqAttempt at hr
  split at hr
  · cases hr
  next r0 =>
    split at hr
    next h0 =>
      left
      rw [hr]
    next h0 =>
      right
      refine ⟨r0.2, ?_, hr⟩
      have h1 : r0.1 = none := Option.not_isSome_iff_eq_none.mp h0
      rw [← h1]

theorem popFail_eq_some {a : Option (Option H × List Val)} {r : Option H × List Val}
    (hr : popFail a = some r) (hs : r.1.isSome) : a = some r := by
  unfold popFail at hr
  split at hr
  · cases hr
  next r0 =>
    split at hr
    next h0 => exact hr
    next h0 =>
      have h1 := Option.some.inj hr
      rw [← h1] at hs
      simp at hs

/-- A successful find only returns handlers stored in the tree. -/
theorem findFuel_mem_handler :
    ∀ (fuel : Nat) (method : String) (cn : Node H) (path : List Char) (n : Nat)
      (vs : List Val) (h : H) (vs2 : List Val),
      findFuel fuel method cn path n vs = some (some h, vs2) → HandlerIn h cn := by
  intro fuel
  induction fuel with
  | zero => intro method cn path n vs h vs2 hEq; cases hEq
  | succ f ih =>
    intro method cn path n vs h vs2 hEq
    match cn with
    | .mk l p cs k mp =>
      simp only [findFuel] at hEq
      split at hEq
      · have hr := Option.some.inj hEq
        obtain ⟨en, hen, hh⟩ := findTerminal_handler hr
        obtain ⟨s2, hs2⟩ := mapLookup_mem hen
        exact .here hs2 hh
      · cases seqAttempt_eq_some hEq (by simp) with
        | inl h1 =>
          split at h1
          next c hfc => exact .child (findChild_mem hfc) (ih _ _ _ _ _ _ _ h1)
          next => simp at h1
        | inr h1 =>
          obtain ⟨vs1, ha1, h2⟩ := h1
          split at h2
          · simp at h2
          · cases seqAttempt_eq_some h2 (by simp) with
            | inl h3 =>
              split at h3
              next c hfp =>
                have h4 := popFail_eq_some h3 (by simp)
                exact .child (findByKind_mem hfp) (ih _ _ _ _ _ _ _ h4)
              next => simp at h3
            | inr h3 =>
              obtain ⟨vs3, ha3, h4⟩ := h3
              split at h4
              next c hfa => exact .child (findByKind_mem hfa) (ih _ _ _ _ _ _ _ h4)
              next => simp at h4

/-- Router.find only returns handlers stored in the tree. -/
theorem find_mem_handler {t : Node H} {method q : String} {h : H}
    (hf : (Router.find t method q).1 = some h) : HandlerIn h t := by
  unfold Router.find at hf
  cases hfe : findFuel (Node.size t) method t q.data 0 [] with
  | none => rw [hfe] at hf; cases hf
  | some r =>
    rw [hfe] at hf
    obtain ⟨r1, r2⟩ := r
    simp at hf
    rw [hf] at hfe
    exact findFuel_mem_handler _ _ _ _ _ _ _ _ hfe

/-- Insertion only adds the inserted handler: any handler in the result
was already in the tree or is the one being inserted. -/
theorem insertT_handlerIn :
    ∀ (sz : Nat) (t : Node H), Node.size t ≤ sz →
    ∀ (method : String) (path : List Char) (kind : Nat)
      (names : Option (List String)) (handler : Option H) (h : H),
      HandlerIn h (insertT method path kind names handler t) →
      HandlerIn h t ∨ some h = handler := by
  intro sz
  induction sz with
  | zero =>
    intro t hsz
    have := Node.size_pos t
    omega
  | succ sz ih =>
    intro t hsz method path kind names handler h hin
    match t with
    | .mk lbl p cs k mp =>
      rw [insertT_eq] at hin
      split at hin
      · split at hin
        · cases hin with
          | here hm he =>
            have h1 := List.mem_singleton.mp hm
            cases h1
            simp at he
            exact Or.inr he.symm
          | child hc hsub =>
            have h1 := List.mem_singleton.mp hc
            subst h1
            exact Or.inl (handlerIn_congr hsub)
        · cases hin with
          | here hm he => cases hm
          | child hc hsub =>
            simp at hc
            cases hc with
            | inl h1 =>
              subst h1
              exact Or.inl (handlerIn_congr hsub)
            | inr h1 =>
              subst h1
              cases hsub with
              | here hm2 he2 =>
                have h2 := List.mem_singleton.mp hm2
                cases h2
                simp at he2
                exact Or.inr he2.symm
              | child hc2 _ => cases hc2
      · split at hin
        · split at hin
          next c hfc =>
            cases hin with
            | here hm he => exact Or.inl (.here hm he)
            | child hc hsub =>
              cases mem_replaceFirstLbl hc with
              | inl hcs => exact Or.inl (.child hcs hsub)
              | inr hx =>
                subst hx
                have hlt := Node.size_child_lt
                  (show c ∈ (Node.mk lbl p cs k mp).children from findByLabel_mem hfc)
                cases ih c (by omega) _ _ _ _ _ _ hsub with
                | inl h2 => exact Or.inl (.child (findByLabel_mem hfc) h2)
                | inr h2 => exact Or.inr h2
          next hfc =>
            cases hin with
            | here hm he => exact Or.inl (.here hm he)
            | child hc hsub =>
              rcases List.mem_append.mp hc with hcs | hx
              · exact Or.inl (.child hcs hsub)
              · have h1 := List.mem_singleton.mp hx
                subst h1
                cases hsub with
                | here hm2 he2 =>
                  have h2 := List.mem_singleton.mp hm2
                  cases h2
                  simp at he2
                  exact Or.inr he2.symm
                | child hc2 _ => cases hc2
        · split at hin
          next h0 hh =>
            cases hin with
            | here hm he =>
              cases mem_jsMapSet hm with
              | inl h2 => exact Or.inl (.here h2 he)
              | inr h2 =>
                cases h2
                simp at he
                exact Or.inr (by rw [he])
            | child hc hsub => exact Or.inl (.child hc hsub)
          next hh => exact Or.inl hin

/-- The same bound for a whole registration: add only adds its own
handler. -/
theorem addFuel_handlerIn :
    ∀ (fuel : Nat) (method : String) (handler : H) (pathLength i : Nat)
      (path : List Char) (params : List String) (t t2 : Node H),
      addFuel method handler pathLength fuel i path params t = some t2 →
      ∀ (h : H), HandlerIn h t2 → HandlerIn h t ∨ h = handler := by
  intro fuel
  induction fuel with
  | zero => intro method handler pathLength i path params t t2 hEq; cases hEq
  | succ f ih =>
    intro method handler pathLength i path params t t2 hEq h hin
    have insStep : ∀ (t3 : Node H) (pathx : List Char) (kindx : Nat)
        (namesx : Option (List String)),
        HandlerIn h (insertT method pathx kindx namesx none t3) → HandlerIn h t3 := by
      intro t3 pathx kindx namesx hin3
      cases insertT_handlerIn (Node.size t3) t3 (Nat.le_refl _) _ _ _ _ _ _ hin3 with
      | inl h2 => exact h2
      | inr h2 => cases h2
    have insStepH : ∀ (t3 : Node H) (pathx : List Char) (kindx : Nat)
        (namesx : Option (List String)),
        HandlerIn h (insertT method pathx kindx namesx (some handler) t3) →
        HandlerIn h t3 ∨ h = handler := by
      intro t3 pathx kindx namesx hin3
      cases insertT_handlerIn (Node.size t3) t3 (Nat.le_refl _) _ _ _ _ _ _ hin3 with
      | inl h2 => exact Or.inl h2
      | inr h2 => exact Or.inr (Option.some.inj h2)
    simp only [addFuel] at hEq
    split at hEq
    · split at hEq
      · split at hEq
        · have ht2 := Option.some.inj hEq
          subst ht2
          cases insStepH _ _ _ _ hin with
          | inl h2 => exact Or.inl (insStep _ _ _ _ h2)
          | inr h2 => exact Or.inr h2
        · cases ih _ _ _ _ _ _ _ _ hEq h hin with
          | inl h2 => exact Or.inl (insStep _ _ _ _ (insStep _ _ _ _ h2))
          | inr h2 => exact Or.inr h2
      · split at hEq
        · have ht2 := Option.some.inj hEq
          subst ht2
          cases insStepH _ _ _ _ hin with
          | inl h2 => exact Or.inl (insStep _ _ _ _ h2)
          | inr h2 => exact Or.inr h2
        · cases ih _ _ _ _ _ _ _ _ hEq h hin with
          | inl h2 => exact Or.inl h2
          | inr h2 => exact Or.inr h2
    · have ht2 := Option.some.inj hEq
      subst ht2
      exact insStepH _ _ _ _ hin

/-- Router.add only adds its own handler. -/
theorem add_handlerIn {t : Node H} {method pat : String} {hh h : H}
    (hin : HandlerIn h (Router.add t method pat hh)) : HandlerIn h t ∨ h = hh := by
  unfold Router.add at hin
  cases hEq : addFuel method hh pat.length (pat.length + 1) 0 pat.data [] t with
  | none => rw [hEq] at hin; exact Or.inl hin
  | some t2 =>
    rw [hEq] at hin
    exact addFuel_handlerIn _ _ _ _ _ _ _ _ _ hEq h hin


/-! Arithmetic of longest common prefixes and of child-list updates. -/

theorem commonLen_nil_right : ∀ (a : List Char), commonLen a [] = 0 := by
  intro a
  cases a <;> rfl

theorem commonLen_self : ∀ (p : List Char), commonLen p p = p.length := by
  intro p
  induction p with
  | nil => rfl
  | cons a as ih => simp [commonLen, ih]

theorem commonLen_append : ∀ (p r : List Char), commonLen (p ++ r) p = p.length := by
  intro p
  induction p with
  | nil => intro r; exact commonLen_nil_right r
  | cons a as ih => intro r; simp [commonLen, ih]

theorem commonLen_le_left : ∀ (a b : List Char), commonLen a b ≤ a.length := by
  intro a
  induction a with
  | nil => intro b; cases b <;> simp [commonLen]
  | cons x xs ih =>
    intro b
    cases b with
    | nil => simp [commonLen]
    | cons y ys =>
      simp only [commonLen]
      split
      · have := ih ys
        simp
        omega
      · simp

theorem commonLen_le_right : ∀ (a b : List Char), commonLen a b ≤ b.length := by
  intro a
  induction a with
  | nil => intro b; cases b <;> simp [commonLen]
  | cons x xs ih =>
    intro b
    cases b with
    | nil => simp [commonLen]
    | cons y ys =>
      simp only [commonLen]
      split
      · have := ih ys
        simp
        omega
      · simp

theorem commonLen_take : ∀ (a b : List Char),
    a.take (commonLen a b) = b.take (commonLen a b) := by
  intro a
  induction a with
  | nil => intro b; cases b <;> simp [commonLen]
  | cons x xs ih =>
    intro b
    cases b with
    | nil => simp [commonLen]
    | cons y ys =>
      simp only [commonLen]
      split
      next hxy =>
        subst hxy
        simp only [List.take_succ_cons]
        rw [ih ys]
      next => simp

theorem commonLen_take_self : ∀ (a : List Char) (l : Nat), l ≤ a.length →
    commonLen a (a.take l) = l := by
  intro a
  induction a with
  | nil =>
    intro l hl
    simp at hl
    subst hl
    rfl
  | cons x xs ih =>
    intro l hl
    cases l with
    | zero => rfl
    | succ l2 =>
      simp only [List.take_succ_cons, commonLen]
      simp at hl
      simp [ih l2 hl]

theorem commonLen_drop_ne : ∀ (a b : List Char),
    commonLen a b < a.length → commonLen a b < b.length →
    jsLabelEq (a.drop (commonLen a b))[0]? (b.drop (commonLen a b))[0]? = false := by
  intro a
  induction a with
  | nil => intro b h1 h2; simp at h1
  | cons x xs ih =>
    intro b h1 h2
    cases b with
    | nil => simp at h2
    | cons y ys =>
      simp only [commonLen] at h1 h2 ⊢
      split
      next hxy =>
        rw [if_pos hxy] at h1 h2
        simp only [List.drop_succ_cons]
        simp at h1 h2
        exact ih ys h1 h2
      next hxy =>
        simp only [List.drop_zero, List.getElem?_cons_zero, jsLabelEq]
        simp
        exact hxy

theorem commonLen_full_eq : ∀ (a b : List Char),
    commonLen a b = a.length → commonLen a b = b.length → a = b := by
  intro a
  induction a with
  | nil =>
    intro b h1 h2
    cases b with
    | nil => rfl
    | cons y ys => simp [commonLen] at h2
  | cons x xs ih =>
    intro b h1 h2
    cases b with
    | nil => simp [commonLen_nil_right] at h1
    | cons y ys =>
      simp only [commonLen] at h1 h2
      split at h1
      next hxy =>
        rw [if_pos hxy] at h2
        simp at h1 h2
        subst hxy
        rw [ih ys h1 h2]
      next hxy => simp at h1

theorem commonLen_prefix : ∀ (a b : List Char), commonLen a b = b.length →
    a = b ++ a.drop b.length := by
  intro a
  induction a with
  | nil =>
    intro b h
    cases b with
    | nil => rfl
    | cons y ys => simp [commonLen] at h
  | cons x xs ih =>
    intro b h
    cases b with
    | nil => rfl
    | cons y ys =>
      simp only [commonLen] at h
      split at h
      next hxy =>
        simp at h
        subst hxy
        simp only [List.cons_append, List.length_cons, List.drop_succ_cons, List.cons.injEq,
          true_and]
        exact ih ys h
      next hxy => simp at h

theorem jsLabelEq_refl_some {x : Option Char} {ch : Char} (h : x = some ch) :
    jsLabelEq x x = true := by
  subst h
  simp [jsLabelEq]

theorem jsLabelEq_some_iff {lbl x : Option Char} (h : jsLabelEq lbl x = true) :
    ∃ ch, lbl = some ch ∧ x = some ch := by
  cases lbl with
  | none => simp [jsLabelEq] at h
  | some c1 =>
    cases x with
    | none => simp [jsLabelEq] at h
    | some c2 =>
      simp [jsLabelEq] at h
      exact ⟨c1, rfl, by rw [h]⟩

theorem findByLabel_label {cs : List (Node H)} {lbl : Option Char} {c : Node H}
    (h : findByLabel cs lbl = some c) : jsLabelEq lbl c.label = true := by
  unfold findByLabel at h
  have h2 := List.find?_some h
  simpa using h2

theorem replaceFirstLbl_self : ∀ {cs : List (Node H)} {lbl : Option Char} {c : Node H},
    findByLabel cs lbl = some c → replaceFirstLbl cs lbl c = cs := by
  intro cs
  induction cs with
  | nil => intro lbl c h; cases h
  | cons a as ih =>
    intro lbl c h
    cases hpa : jsLabelEq lbl a.label with
    | false =>
      simp only [findByLabel, List.find?, hpa] at h
      simp [replaceFirstLbl, hpa, ih h]
    | true =>
      simp only [findByLabel, List.find?, hpa] at h
      simp [replaceFirstLbl, hpa]
      exact (Option.some.inj h).symm

theorem findByLabel_replaceFirst_same :
    ∀ {cs : List (Node H)} {lbl : Option Char} {c x : Node H},
    findByLabel cs lbl = some c → jsLabelEq lbl x.label = true →
    findByLabel (replaceFirstLbl cs lbl x) lbl = some x := by
  intro cs
  induction cs with
  | nil => intro lbl c x h hx; cases h
  | cons a as ih =>
    intro lbl c x h hx
    cases hpa : jsLabelEq lbl a.label with
    | false =>
      simp only [findByLabel, List.find?, hpa] at h
      simp only [replaceFirstLbl, hpa]
      simp only [Bool.false_eq_true, if_false]
      simp only [findByLabel, List.find?, hpa]
      exact ih h hx
    | true =>
      simp only [replaceFirstLbl, hpa, if_true]
      simp only [findByLabel, List.find?, hx]

theorem findByLabel_replaceFirst_other :
    ∀ {cs : List (Node H)} {lbl lbl2 : Option Char} {x : Node H},
    (∀ nd : Node H, jsLabelEq lbl nd.label = true → jsLabelEq lbl2 nd.label = false) →
    jsLabelEq lbl2 x.label = false →
    findByLabel (replaceFirstLbl cs lbl x) lbl2 = findByLabel cs lbl2 := by
  intro cs
  induction cs with
  | nil => intro lbl lbl2 x hdiff hx; rfl
  | cons a as ih =>
    intro lbl lbl2 x hdiff hx
    cases hpa : jsLabelEq lbl a.label with
    | false =>
      simp only [replaceFirstLbl, hpa, Bool.false_eq_true, if_false]
      simp only [findByLabel, List.find?]
      cases hpb : jsLabelEq lbl2 a.label with
      | false => exact ih hdiff hx
      | true => rfl
    | true =>
      simp only [replaceFirstLbl, hpa, if_true]
      simp only [findByLabel, List.find?, hx, hdiff a hpa]

theorem replaceFirst_replaceFirst :
    ∀ {cs : List (Node H)} {lbl : Option Char} {x y : Node H},
    jsLabelEq lbl x.label = true →
    replaceFirstLbl (replaceFirstLbl cs lbl x) lbl y = replaceFirstLbl cs lbl y := by
  intro cs
  induction cs with
  | nil => intro lbl x y hx; rfl
  | cons a as ih =>
    intro lbl x y hx
    cases hpa : jsLabelEq lbl a.label with
    | false =>
      simp only [replaceFirstLbl, hpa, Bool.false_eq_true, if_false]
      rw [ih hx]
    | true =>
      simp only [replaceFirstLbl, hpa, if_true]
      simp only [replaceFirstLbl, hx, if_true]

theorem findByLabel_append_left :
    ∀ {cs : List (Node H)} {lbl : Option Char} {c : Node H} (l2 : List (Node H)),
    findByLabel cs lbl = some c → findByLabel (cs ++ l2) lbl = some c := by
  intro cs
  induction cs with
  | nil => intro lbl c l2 h; cases h
  | cons a as ih =>
    intro lbl c l2 h
    cases hpa : jsLabelEq lbl a.label with
    | false =>
      simp only [findByLabel, List.find?, hpa] at h
      simp only [List.cons_append, findByLabel, List.find?, hpa]
      exact ih l2 h
    | true =>
      simp only [findByLabel, List.find?, hpa] at h
      simp only [List.cons_append, findByLabel, List.find?, hpa]
      exact h

theorem findByLabel_append_none :
    ∀ {cs : List (Node H)} {lbl : Option Char} {x : Node H},
    findByLabel cs lbl = none → jsLabelEq lbl x.label = true →
    findByLabel (cs ++ [x]) lbl = some x := by
  intro cs
  induction cs with
  | nil =>
    intro lbl x h hx
    simp only [List.nil_append, findByLabel, List.find?, hx]
  | cons a as ih =>
    intro lbl x h hx
    cases hpa : jsLabelEq lbl a.label with
    | false =>
      simp only [findByLabel, List.find?, hpa] at h
      simp only [List.cons_append, findByLabel, List.find?, hpa]
      exact ih h hx
    | true =>
      simp only [findByLabel, List.find?, hpa] at h
      cases h

theorem replaceFirst_append :
    ∀ {cs : List (Node H)} {lbl : Option Char} {x y : Node H},
    findByLabel cs lbl = none → jsLabelEq lbl x.label = true →
    replaceFirstLbl (cs ++ [x]) lbl y = cs ++ [y] := by
  intro cs
  induction cs with
  | nil =>
    intro lbl x y h hx
    simp only [List.nil_append, replaceFirstLbl, hx, if_true]
  | cons a as ih =>
    intro lbl x y h hx
    cases hpa : jsLabelEq lbl a.label with
    | false =>
      simp only [findByLabel, List.find?, hpa] at h
      simp only [List.cons_append, replaceFirstLbl, hpa, Bool.false_eq_true, if_false]
      exact congrArg (fun l => a :: l) (ih h hx)
    | true =>
      simp only [findByLabel, List.find?, hpa] at h
      cases h

theorem jsMapSet_overwrite : ∀ (mp : List (String × Entry H)) (k : String)
    (v1 v2 : Entry H), jsMapSet (jsMapSet mp k v1) k v2 = jsMapSet mp k v2 := by
  intro mp
  induction mp with
  | nil => intro k v1 v2; simp [jsMapSet]
  | cons a as ih =>
    intro k v1 v2
    obtain ⟨k2, v3⟩ := a
    simp only [jsMapSet]
    by_cases hk : k2 = k
    · subst hk
      simp [jsMapSet]
    · rw [if_neg hk]
      simp only [jsMapSet, if_neg hk]
      rw [ih]


/-! The label cache invariant: on every node reachable from a well-formed
root, the label equals the first character of the prefix (or the prefix is
empty, in which case the label is stale). The constructor establishes it
and all tree operations preserve it. -/

inductive LabelOk : Node H → Prop where
  | mk (lbl : Option Char) (p : List Char) (cs : List (Node H)) (k : Nat)
      (mp : List (String × Entry H)) :
      (lbl = p[0]? ∨ p = []) → (∀ c ∈ cs, LabelOk c) → LabelOk (.mk lbl p cs k mp)

theorem LabelOk.root {lbl : Option Char} {p : List Char} {cs : List (Node H)}
    {k : Nat} {mp : List (String × Entry H)} (h : LabelOk (.mk lbl p cs k mp)) :
    lbl = p[0]? ∨ p = [] := by
  cases h
  assumption

theorem LabelOk.childOk {lbl : Option Char} {p : List Char} {cs : List (Node H)}
    {k : Nat} {mp : List (String × Entry H)} (h : LabelOk (.mk lbl p cs k mp)) :
    ∀ c ∈ cs, LabelOk c := by
  cases h
  assumption

theorem labelOk_empty : LabelOk (Router.empty : Node H) := by
  exact .mk _ _ _ _ _ (Or.inl rfl) (by intro c hc; cases hc)

theorem take_getElem0 (p : List Char) (l : Nat) (hl : 0 < l) :
    (p.take l)[0]? = p[0]? := by
  cases p with
  | nil => simp
  | cons x xs =>
    cases l with
    | zero => omega
    | succ l2 => simp

/-- Insertion does not change the label of the node it is applied to,
provided the label cache of that node is consistent. -/
theorem insertT_label (method : String) (path : List Char) (kind : Nat)
    (names : Option (List String)) (handler : Option H)
    (lbl : Option Char) (p : List Char) (cs : List (Node H)) (k : Nat)
    (mp : List (String × Entry H)) (hroot : lbl = p[0]? ∨ p = []) :
    (insertT method path kind names handler (.mk lbl p cs k mp)).label = lbl := by
  rw [insertT_eq]
  split
  next h1 =>
    cases hroot with
    | inl h2 =>
      split <;> simp [Node.label, h2]
    | inr h2 =>
      subst h2
      simp at h1
  next h1 =>
    split
    · split
      next c hfc => rfl
      next hfc => rfl
    · split
      next => rfl
      next => rfl

/-- Insertion preserves the label cache invariant. -/
theorem insertT_labelOk :
    ∀ (sz : Nat) (t : Node H), Node.size t ≤ sz → LabelOk t →
    ∀ (method : String) (path : List Char) (kind : Nat)
      (names : Option (List String)) (handler : Option H),
    LabelOk (insertT method path kind names handler t) := by
  intro sz
  induction sz with
  | zero =>
    intro t hsz
    have := Node.size_pos t
    omega
  | succ sz ih =>
    intro t hsz hok method path kind names handler
    match t with
    | .mk lbl p cs k mp =>
      rw [insertT_eq]
      split
      next h1 =>
        have hchild : LabelOk (newNode (p.drop (commonLen path p)) cs k mp : Node H) :=
          .mk _ _ _ _ _ (Or.inl rfl) hok.childOk
        have hroot2 : (p[0]? : Option Char) = (p.take (commonLen path p))[0]? ∨
            p.take (commonLen path p) = [] := by
          cases Nat.eq_zero_or_pos (commonLen path p) with
          | inl hz => right; rw [hz]; rfl
          | inr hpos => left; rw [take_getElem0 p _ hpos]
        split
        · exact .mk _ _ _ _ _ hroot2 (by
            intro c hc
            have := List.mem_singleton.mp hc
            subst this
            exact hchild)
        · refine .mk _ _ _ _ _ hroot2 ?_
          intro c hc
          simp at hc
          cases hc with
          | inl h2 => subst h2; exact hchild
          | inr h2 =>
            subst h2
            exact .mk _ _ _ _ _ (Or.inl rfl) (by intro c2 hc2; cases hc2)
      next h1 =>
        split
        · split
          next c hfc =>
            refine .mk _ _ _ _ _ hok.root ?_
            intro c2 hc2
            cases mem_replaceFirstLbl hc2 with
            | inl h2 => exact hok.childOk c2 h2
            | inr h2 =>
              subst h2
              have hlt := Node.size_child_lt
                (show c ∈ (Node.mk lbl p cs k mp).children from findByLabel_mem hfc)
              exact ih c (by omega) (hok.childOk c (findByLabel_mem hfc)) _ _ _ _ _
          next hfc =>
            refine .mk _ _ _ _ _ hok.root ?_
            intro c2 hc2
            rcases List.mem_append.mp hc2 with h2 | h2
            · exact hok.childOk c2 h2
            · have h3 := List.mem_singleton.mp h2
              subst h3
              exact .mk _ _ _ _ _ (Or.inl rfl) (by intro c3 hc3; cases hc3)
        · split
          next => exact .mk _ _ _ _ _ hok.root hok.childOk
          next => exact .mk _ _ _ _ _ hok.root hok.childOk


/-! Exact node boundaries: the walk of insert consumes whole node prefixes
and ends exactly at a node. Inserting a path creates such a boundary,
later insertions preserve it, and a handler-less insertion along an
existing boundary is the identity. -/

inductive ExactPath : Node H → List Char → Prop where
  | done (lbl : Option Char) (p : List Char) (cs : List (Node H)) (k : Nat)
      (mp : List (String × Entry H)) : ExactPath (.mk lbl p cs k mp) p
  | step (lbl : Option Char) (p : List Char) (cs : List (Node H)) (k : Nat)
      (mp : List (String × Entry H)) (rest : List Char) (c : Node H) :
      rest ≠ [] → findByLabel cs rest[0]? = some c → ExactPath c rest →
      ExactPath (.mk lbl p cs k mp) (p ++ rest)

theorem drop_ne_nil {l : List Char} {n : Nat} (h : n < l.length) : l.drop n ≠ [] := by
  intro hc
  have h2 : (l.drop n).length = l.length - n := List.length_drop _ _
  rw [hc] at h2
  simp at h2
  omega

theorem getElem0_some {l : List Char} (h : l ≠ []) : ∃ ch, l[0]? = some ch := by
  cases l with
  | nil => exact absurd rfl h
  | cons x xs => exact ⟨x, by simp⟩

/-- Wrapper of insertT_label for an arbitrary well-formed node. -/
theorem insertT_label_ok {c : Node H} (hok : LabelOk c) (method : String)
    (path : List Char) (kind : Nat) (names : Option (List String))
    (handler : Option H) :
    (insertT method path kind names handler c).label = c.label := by
  match c with
  | .mk lbl p cs k mp => exact insertT_label method path kind names handler lbl p cs k mp hok.root

/-- A handler-less insertion along an existing exact boundary changes
nothing: every node on the walk matches fully and the final full-match
branch does not touch the node when the handler is undefined. -/
theorem insertT_noop :
    ∀ {t : Node H} {path : List Char}, ExactPath t path →
    ∀ (method : String) (kind : Nat) (names : Option (List String)),
    insertT method path kind names none t = t := by
  intro t path hex
  induction hex with
  | done lbl p cs k mp =>
    intro method kind names
    rw [insertT_eq, commonLen_self]
    simp
  | step lbl p cs k mp rest c hne hfind hsub ih =>
    intro method kind names
    rw [insertT_eq, commonLen_append]
    have hlt : p.length < (p ++ rest).length := by
      simp only [List.length_append]
      have := List.length_pos.mpr hne
      omega
    rw [if_neg (lt_irrefl _), if_pos hlt, List.drop_left, hfind]
    simp only [ih method kind names, replaceFirstLbl_self hfind]

/-- Inserting a path creates an exact boundary at that path. -/
theorem insertT_exactPath :
    ∀ (sz : Nat) (t : Node H), Node.size t ≤ sz → LabelOk t →
    ∀ (method : String) (path : List Char) (kind : Nat)
      (names : Option (List String)) (handler : Option H),
    ExactPath (insertT method path kind names handler t) path := by
  intro sz
  induction sz with
  | zero =>
    intro t hsz
    have := Node.size_pos t
    omega
  | succ sz ih =>
    intro t hsz hok method path kind names handler
    match t with
    | .mk lbl p cs k mp =>
      rw [insertT_eq]
      split
      next h1 =>
        have htake : path.take (commonLen path p) = p.take (commonLen path p) :=
          commonLen_take path p
        have hle : commonLen path p ≤ path.length := commonLen_le_left path p
        split
        next h2 =>
          have hp : p.take (commonLen path p) = path := by
            rw [← htake, h2, List.take_length]
          generalize (commonLen path p) = n at hp h1 ⊢
          rw [← hp]
          exact ExactPath.done _ _ _ _ _
        next h2 =>
          have h2lt : commonLen path p < path.length := lt_of_le_of_ne hle h2
          have hdropne := commonLen_drop_ne path p h2lt h1
          have hp : path = p.take (commonLen path p) ++ path.drop (commonLen path p) := by
            rw [← htake]
            exact (List.take_append_drop _ path).symm
          generalize (commonLen path p) = n at hp h1 h2lt hdropne ⊢
          obtain ⟨ch, hch⟩ := getElem0_some (drop_ne_nil h2lt)
          have hfind2 : findByLabel
              [newNode (p.drop n) cs k mp,
               newNode (path.drop n) [] kind [(method, ⟨handler, names⟩)]]
              (path.drop n)[0]? =
              some (newNode (path.drop n) [] kind [(method, ⟨handler, names⟩)]) := by
            simp only [findByLabel, List.find?, newNode, Node.label, hdropne]
            rw [jsLabelEq_refl_some hch]
          have hstep := ExactPath.step p[0]? (p.take n)
            [newNode (p.drop n) cs k mp,
             newNode (path.drop n) [] kind [(method, ⟨handler, names⟩)]]
            skind [] (path.drop n)
            (newNode (path.drop n) [] kind [(method, ⟨handler, names⟩)])
            (drop_ne_nil h2lt) hfind2 (ExactPath.done _ _ _ _ _)
          rw [← hp] at hstep
          exact hstep
      next h1 =>
        have hlen : commonLen path p = p.length :=
          le_antisymm (commonLen_le_right path p) (Nat.not_lt.mp h1)
        split
        next h2 =>
          rw [hlen] at h2 ⊢
          have hdecomp : path = p ++ path.drop p.length := commonLen_prefix path p hlen
          split
          next c hfc =>
            have hmem : c ∈ (Node.mk lbl p cs k mp).children := findByLabel_mem hfc
            have hlt := Node.size_child_lt hmem
            have hlab : (insertT method (path.drop p.length) kind names handler c).label
                = c.label := insertT_label_ok (hok.childOk c (findByLabel_mem hfc)) _ _ _ _ _
            have hfind2 := findByLabel_replaceFirst_same hfc
              (by rw [hlab]; exact findByLabel_label hfc)
            have hstep := ExactPath.step lbl p
              (replaceFirstLbl cs (path.drop p.length)[0]?
                (insertT method (path.drop p.length) kind names handler c)) k mp
              (path.drop p.length)
              (insertT method (path.drop p.length) kind names handler c)
              (drop_ne_nil h2) hfind2
              (ih c (by omega) (hok.childOk c (findByLabel_mem hfc)) _ _ _ _ _)
            rw [← hdecomp] at hstep
            exact hstep
          next hfc =>
            obtain ⟨ch, hch⟩ := getElem0_some (drop_ne_nil h2)
            have hfind2 : findByLabel
                (cs ++ [newNode (path.drop p.length) [] kind [(method, ⟨handler, names⟩)]])
                (path.drop p.length)[0]? =
                some (newNode (path.drop p.length) [] kind [(method, ⟨handler, names⟩)]) := by
              apply findByLabel_append_none hfc
              simp only [newNode, Node.label]
              exact jsLabelEq_refl_some hch
            have hstep := ExactPath.step lbl p
              (cs ++ [newNode (path.drop p.length) [] kind [(method, ⟨handler, names⟩)]])
              k mp (path.drop p.length)
              (newNode (path.drop p.length) [] kind [(method, ⟨handler, names⟩)])
              (drop_ne_nil h2) hfind2 (ExactPath.done _ _ _ _ _)
            rw [← hdecomp] at hstep
            exact hstep
        next h2 =>
          have hpl : commonLen path p = path.length :=
            le_antisymm (commonLen_le_left path p) (Nat.not_lt.mp h2)
          have hpe : path = p := commonLen_full_eq path p hpl hlen
          split
          next => rw [hpe]; exact ExactPath.done _ _ _ _ _
          next => rw [hpe]; exact ExactPath.done _ _ _ _ _


theorem jsLabelEq_some_ne {c1 c2 : Char} (h : c1 ≠ c2) :
    jsLabelEq (some c1) (some c2) = false := by
  simp [jsLabelEq]
  exact h

/-- Any insertion preserves an existing exact boundary: splits only move
the boundary onto two chained nodes, child updates keep labels, and
appended children sit behind all existing ones. -/
theorem insertT_preserve {t : Node H} {s : List Char} (hex : ExactPath t s) :
    ∀ (method : String) (q : List Char) (kind : Nat)
      (names : Option (List String)) (handler : Option H), LabelOk t →
    ExactPath (insertT method q kind names handler t) s := by
  induction hex with
  | done lbl p cs k mp =>
    intro method q kind names handler hok
    rw [insertT_eq]
    split
    next h1 =>
      have hdropne : p.drop (commonLen q p) ≠ [] := drop_ne_nil h1
      obtain ⟨chp, hchp⟩ := getElem0_some hdropne
      have hmain : ∀ (cs2 : List (Node H)) (k2 : Nat) (mp2 : List (String × Entry H)),
          ExactPath (Node.mk p[0]? (p.take (commonLen q p))
            (newNode (p.drop (commonLen q p)) cs k mp :: cs2) k2 mp2) p := by
        intro cs2 k2 mp2
        have hfindc : findByLabel (newNode (p.drop (commonLen q p)) cs k mp :: cs2)
            (p.drop (commonLen q p))[0]? =
            some (newNode (p.drop (commonLen q p)) cs k mp) := by
          simp only [findByLabel, List.find?, newNode, Node.label]
          rw [jsLabelEq_refl_some hchp]
        have hstep := ExactPath.step p[0]? (p.take (commonLen q p))
          (newNode (p.drop (commonLen q p)) cs k mp :: cs2) k2 mp2
          (p.drop (commonLen q p)) _ hdropne hfindc (ExactPath.done _ _ _ _ _)
        rw [List.take_append_drop] at hstep
        exact hstep
      split
      next => exact hmain _ _ _
      next => exact hmain _ _ _
    next h1 =>
      split
      next h2 =>
        split
        next ci hfq => exact ExactPath.done _ _ _ _ _
        next hfq => exact ExactPath.done _ _ _ _ _
      next h2 =>
        split
        next => exact ExactPath.done _ _ _ _ _
        next => exact ExactPath.done _ _ _ _ _
  | step lbl p cs k mp rest cc hne hfind hsub ih =>
    intro method q kind names handler hok
    have hokcc : LabelOk cc := hok.childOk cc (findByLabel_mem hfind)
    rw [insertT_eq]
    split
    next h1 =>
      have hdropne : p.drop (commonLen q p) ≠ [] := drop_ne_nil h1
      obtain ⟨chp, hchp⟩ := getElem0_some hdropne
      have hmain : ∀ (cs2 : List (Node H)) (k2 : Nat) (mp2 : List (String × Entry H)),
          ExactPath (Node.mk p[0]? (p.take (commonLen q p))
            (newNode (p.drop (commonLen q p)) cs k mp :: cs2) k2 mp2) (p ++ rest) := by
        intro cs2 k2 mp2
        have hfindc : findByLabel (newNode (p.drop (commonLen q p)) cs k mp :: cs2)
            (p.drop (commonLen q p))[0]? =
            some (newNode (p.drop (commonLen q p)) cs k mp) := by
          simp only [findByLabel, List.find?, newNode, Node.label]
          rw [jsLabelEq_refl_some hchp]
        have hne2 : p.drop (commonLen q p) ++ rest ≠ [] := by
          intro hc
          exact hdropne (List.append_eq_nil.mp hc).1
        have h0 : 0 < (List.drop (commonLen q p) p).length :=
          List.length_pos.mpr hdropne
        have hfst : (p.drop (commonLen q p) ++ rest)[0]? =
            (p.drop (commonLen q p))[0]? := by
          rw [List.getElem?_append, if_pos h0]
        have hchild : ExactPath (newNode (p.drop (commonLen q p)) cs k mp : Node H)
            ((p.drop (commonLen q p)) ++ rest) :=
          ExactPath.step _ _ _ _ _ rest cc hne hfind hsub
        have hstep := ExactPath.step p[0]? (p.take (commonLen q p))
          (newNode (p.drop (commonLen q p)) cs k mp :: cs2) k2 mp2
          ((p.drop (commonLen q p)) ++ rest) _ hne2
          (by rw [hfst]; exact hfindc) hchild
        rw [← List.append_assoc, List.take_append_drop] at hstep
        exact hstep
      split
      next => exact hmain _ _ _
      next => exact hmain _ _ _
    next h1 =>
      split
      next h2 =>
        split
        next ci hfq =>
          obtain ⟨chq, hlq, hclab⟩ := jsLabelEq_some_iff (findByLabel_label hfq)
          obtain ⟨chr, hchr⟩ := getElem0_some hne
          have hokci : LabelOk ci := hok.childOk ci (findByLabel_mem hfq)
          have hlab : (insertT method (q.drop (commonLen q p)) kind names handler ci).label
              = ci.label := insertT_label_ok hokci _ _ _ _ _
          by_cases hSame : chr = chq
          · have hfind3 : findByLabel cs (q.drop (commonLen q p))[0]? = some cc := by
              rw [hchr, hSame, ← hlq] at hfind
              exact hfind
            have hcc : cc = ci := Option.some.inj (hfind3.symm.trans hfq)
            subst hcc
            have hfind2 : findByLabel
                (replaceFirstLbl cs (q.drop (commonLen q p))[0]?
                  (insertT method (q.drop (commonLen q p)) kind names handler cc))
                rest[0]? =
                some (insertT method (q.drop (commonLen q p)) kind names handler cc) := by
              rw [hchr, hSame, ← hlq]
              exact findByLabel_replaceFirst_same hfq
                (by rw [hlab]; exact findByLabel_label hfq)
            exact ExactPath.step _ _ _ _ _ rest _ hne hfind2
              (ih _ _ _ _ _ hokcc)
          · have hfind2 : findByLabel
                (replaceFirstLbl cs (q.drop (commonLen q p))[0]?
                  (insertT method (q.drop (commonLen q p)) kind names handler ci))
                rest[0]? = findByLabel cs rest[0]? := by
              apply findByLabel_replaceFirst_other
              · intro nd hnd
                obtain ⟨ch2, hc2a, hc2b⟩ := jsLabelEq_some_iff hnd
                have hch2 : ch2 = chq := Option.some.inj (hc2a.symm.trans hlq)
                rw [hchr, hc2b, hch2]
                exact jsLabelEq_some_ne hSame
              · rw [hchr, hlab, hclab]
                exact jsLabelEq_some_ne hSame
            exact ExactPath.step _ _ _ _ _ rest cc hne
              (by rw [hfind2]; exact hfind) hsub
        next hfq =>
          exact ExactPath.step _ _ _ _ _ rest cc hne
            (findByLabel_append_left _ hfind) hsub
      next h2 =>
        split
        next => exact ExactPath.step _ _ _ _ _ rest cc hne hfind hsub
        next => exact ExactPath.step _ _ _ _ _ rest cc hne hfind hsub


/-- Re-inserting the same path with a second handler overwrites the first:
the composed insertion equals the single insertion of the second handler. -/
theorem insertT_overwrite :
    ∀ (sz : Nat) (t : Node H), Node.size t ≤ sz → LabelOk t →
    ∀ (method : String) (path : List Char) (kind : Nat)
      (names : Option (List String)) (hh1 hh2 : H),
    insertT method path kind names (some hh2)
      (insertT method path kind names (some hh1) t) =
      insertT method path kind names (some hh2) t := by
  intro sz
  induction sz with
  | zero =>
    intro t hsz
    have := Node.size_pos t
    omega
  | succ sz ih =>
    intro t hsz hok method path kind names hh1 hh2
    match t with
    | .mk lbl p cs k mp =>
      rw [insertT_eq method path kind names (some hh1) lbl p cs k mp,
          insertT_eq method path kind names (some hh2) lbl p cs k mp]
      by_cases hc1 : commonLen path p < p.length
      · rw [if_pos hc1, if_pos hc1]
        have htake := commonLen_take path p
        by_cases hc2 : commonLen path p = path.length
        · rw [if_pos hc2, if_pos hc2]
          have hp : p.take (commonLen path p) = path := by
            rw [← htake, hc2, List.take_length]
          rw [insertT_eq method path kind names (some hh2) p[0]?
            (p.take (commonLen path p)) [newNode (p.drop (commonLen path p)) cs k mp]
            kind [(method, ⟨some hh1, names⟩)]]
          rw [hp, commonLen_self, if_neg (lt_irrefl _), if_neg (lt_irrefl _)]
          simp [jsMapSet]
        · rw [if_neg hc2, if_neg hc2]
          have hlt2 : commonLen path p < path.length :=
            lt_of_le_of_ne (commonLen_le_left path p) hc2
          have hlen2 : commonLen path (p.take (commonLen path p)) = commonLen path p := by
            rw [← htake]
            exact commonLen_take_self path _ (commonLen_le_left path p)
          have htklen : (p.take (commonLen path p)).length = commonLen path p := by
            rw [List.length_take]
            omega
          rw [insertT_eq method path kind names (some hh2) p[0]?
            (p.take (commonLen path p))
            [newNode (p.drop (commonLen path p)) cs k mp,
             newNode (path.drop (commonLen path p)) [] kind [(method, ⟨some hh1, names⟩)]]
            skind []]
          rw [hlen2, htklen, if_neg (lt_irrefl _), if_pos hlt2]
          have hdropne2 := commonLen_drop_ne path p hlt2 hc1
          obtain ⟨chr, hchr⟩ := getElem0_some (drop_ne_nil hlt2)
          have hfind : findByLabel
              [newNode (p.drop (commonLen path p)) cs k mp,
               newNode (path.drop (commonLen path p)) [] kind [(method, ⟨some hh1, names⟩)]]
              (path.drop (commonLen path p))[0]? =
              some (newNode (path.drop (commonLen path p)) [] kind
                [(method, ⟨some hh1, names⟩)]) := by
            simp only [findByLabel, List.find?, newNode, Node.label, hdropne2]
            rw [jsLabelEq_refl_some hchr]
          simp only [hfind]
          simp only [newNode]
          rw [insertT_eq method (path.drop (commonLen path p)) kind names (some hh2)
            (path.drop (commonLen path p))[0]? (path.drop (commonLen path p)) []
            kind [(method, ⟨some hh1, names⟩)]]
          rw [commonLen_self, if_neg (lt_irrefl _), if_neg (lt_irrefl _)]
          simp only [replaceFirstLbl, Node.label, hdropne2, Bool.false_eq_true, if_false,
            jsLabelEq_refl_some hchr, if_true]
          simp [jsMapSet]
      · rw [if_neg hc1, if_neg hc1]
        by_cases hc2 : commonLen path p < path.length
        · rw [if_pos hc2, if_pos hc2]
          cases hfq : findByLabel cs (path.drop (commonLen path p))[0]? with
          | some ci =>
            have hokci : LabelOk ci := hok.childOk ci (findByLabel_mem hfq)
            have hmem : ci ∈ (Node.mk lbl p cs k mp).children := findByLabel_mem hfq
            have hlt := Node.size_child_lt hmem
            have hlab : (insertT method (path.drop (commonLen path p)) kind names
                (some hh1) ci).label = ci.label := insertT_label_ok hokci _ _ _ _ _
            have hjl : jsLabelEq (path.drop (commonLen path p))[0]?
                (insertT method (path.drop (commonLen path p)) kind names
                  (some hh1) ci).label = true := by
              rw [hlab]
              exact findByLabel_label hfq
            rw [insertT_eq method path kind names (some hh2) lbl p
              (replaceFirstLbl cs (path.drop (commonLen path p))[0]?
                (insertT method (path.drop (commonLen path p)) kind names (some hh1) ci))
              k mp]
            rw [if_neg hc1, if_pos hc2]
            simp only [findByLabel_replaceFirst_same hfq hjl]
            rw [replaceFirst_replaceFirst hjl]
            rw [ih ci (by omega) hokci method (path.drop (commonLen path p)) kind names hh1 hh2]
          | none =>
            obtain ⟨chr, hchr⟩ := getElem0_some (drop_ne_nil hc2)
            have hjl : jsLabelEq (path.drop (commonLen path p))[0]?
                (newNode (path.drop (commonLen path p)) [] kind
                  [(method, ⟨some hh1, names⟩)] : Node H).label = true := by
              simp only [newNode, Node.label]
              exact jsLabelEq_refl_some hchr
            rw [insertT_eq method path kind names (some hh2) lbl p
              (cs ++ [newNode (path.drop (commonLen path p)) [] kind
                [(method, ⟨some hh1, names⟩)]]) k mp]
            rw [if_neg hc1, if_pos hc2]
            simp only [findByLabel_append_none hfq hjl]
            simp only [newNode]
            rw [insertT_eq method (path.drop (commonLen path p)) kind names (some hh2)
              (path.drop (commonLen path p))[0]? (path.drop (commonLen path p)) []
              kind [(method, ⟨some hh1, names⟩)]]
            rw [commonLen_self, if_neg (lt_irrefl _), if_neg (lt_irrefl _)]
            have hjl2 : jsLabelEq (path.drop (commonLen path p))[0]?
                (Node.mk (path.drop (commonLen path p))[0]? (path.drop (commonLen path p)) []
                  kind [(method, ⟨some hh1, names⟩)] : Node H).label = true := by
              simp only [Node.label]
              exact jsLabelEq_refl_some hchr
            rw [replaceFirst_append hfq hjl2]
            simp [jsMapSet]
        · rw [if_neg hc2, if_neg hc2]
          rw [insertT_eq method path kind names (some hh2) lbl p cs k
            (jsMapSet mp method ⟨some hh1, names⟩)]
          rw [if_neg hc1, if_neg hc2]
          rw [jsMapSet_overwrite]


/-! Size-free wrappers of the insertion lemmas. -/

theorem insertT_labelOkW {t : Node H} (hok : LabelOk t) (method : String)
    (path : List Char) (kind : Nat) (names : Option (List String))
    (handler : Option H) : LabelOk (insertT method path kind names handler t) :=
  insertT_labelOk (Node.size t) t (Nat.le_refl _) hok method path kind names handler

theorem insertT_exactPathW {t : Node H} (hok : LabelOk t) (method : String)
    (path : List Char) (kind : Nat) (names : Option (List String))
    (handler : Option H) : ExactPath (insertT method path kind names handler t) path :=
  insertT_exactPath (Node.size t) t (Nat.le_refl _) hok method path kind names handler

theorem insertT_overwriteW {t : Node H} (hok : LabelOk t) (method : String)
    (path : List Char) (kind : Nat) (names : Option (List String)) (hh1 hh2 : H) :
    insertT method path kind names (some hh2)
      (insertT method path kind names (some hh1) t) =
      insertT method path kind names (some hh2) t :=
  insertT_overwrite (Node.size t) t (Nat.le_refl _) hok method path kind names hh1 hh2

/-- The registration loop preserves the label cache invariant. -/
theorem addFuel_labelOk :
    ∀ (fuel : Nat) (method : String) (hh : H) (pathLength i : Nat)
      (path : List Char) (params : List String) (t t2 : Node H),
      addFuel method hh pathLength fuel i path params t = some t2 →
      LabelOk t → LabelOk t2 := by
  intro fuel
  induction fuel with
  | zero => intro method hh pathLength i path params t t2 h; cases h
  | succ f ih =>
    intro method hh pathLength i path params t t2 h hok
    simp only [addFuel] at h
    split at h
    · split at h
      · split at h
        · cases h
          exact insertT_labelOkW (insertT_labelOkW hok _ _ _ _ _) _ _ _ _ _
        · exact ih _ _ _ _ _ _ _ _ h
            (insertT_labelOkW (insertT_labelOkW hok _ _ _ _ _) _ _ _ _ _)
      · split at h
        · cases h
          exact insertT_labelOkW (insertT_labelOkW hok _ _ _ _ _) _ _ _ _ _
        · exact ih _ _ _ _ _ _ _ _ h hok
    · cases h
      exact insertT_labelOkW hok _ _ _ _ _

/-- The registration loop preserves exact boundaries. -/
theorem addFuel_preserve :
    ∀ (fuel : Nat) (method : String) (hh : H) (pathLength i : Nat)
      (path : List Char) (params : List String) (t t2 : Node H) (s : List Char),
      addFuel method hh pathLength fuel i path params t = some t2 →
      LabelOk t → ExactPath t s → ExactPath t2 s := by
  intro fuel
  induction fuel with
  | zero => intro method hh pathLength i path params t t2 s h; cases h
  | succ f ih =>
    intro method hh pathLength i path params t t2 s h hok hex
    simp only [addFuel] at h
    split at h
    · split at h
      · split at h
        · cases h
          exact insertT_preserve
            (insertT_preserve hex _ _ _ _ _ hok) _ _ _ _ _
            (insertT_labelOkW hok _ _ _ _ _)
        · exact ih _ _ _ _ _ _ _ _ _ h
            (insertT_labelOkW (insertT_labelOkW hok _ _ _ _ _) _ _ _ _ _)
            (insertT_preserve (insertT_preserve hex _ _ _ _ _ hok) _ _ _ _ _
              (insertT_labelOkW hok _ _ _ _ _))
      · split at h
        · cases h
          exact insertT_preserve
            (insertT_preserve hex _ _ _ _ _ hok) _ _ _ _ _
            (insertT_labelOkW hok _ _ _ _ _)
        · exact ih _ _ _ _ _ _ _ _ _ h hok hex
    · cases h
      exact insertT_preserve hex _ _ _ _ _ hok

/-- The registration loop cannot run out of fuel from pathLength - i + 1 on. -/
theorem addFuel_isSome :
    ∀ (fuel : Nat) (method : String) (hh : H) (pathLength i : Nat)
      (path : List Char) (params : List String) (t : Node H),
      pathLength - i < fuel →
      (addFuel method hh pathLength fuel i path params t).isSome := by
  intro fuel
  induction fuel with
  | zero =>
    intro method hh pathLength i path params t hf
    omega
  | succ f ih =>
    intro method hh pathLength i path params t hf
    simp only [addFuel]
    by_cases h1 : i < pathLength
    · rw [if_pos h1]
      by_cases h2 : path[i]? = some ':'
      · rw [if_pos h2]
        by_cases h3 : i + 1 = pathLength
        · rw [if_pos h3]
          simp
        · rw [if_neg h3]
          exact ih _ _ _ _ _ _ _ (by omega)
      · rw [if_neg h2]
        by_cases h4 : path[i]? = some '*'
        · rw [if_pos h4]
          simp
        · rw [if_neg h4]
          exact ih _ _ _ _ _ _ _ (by omega)
    · rw [if_neg h1]
      simp

/-- Registering the same method and pattern a second time with a second
handler yields the same tree as if only the second registration had been
applied: every insertion of the second run either repeats a handler-less
insertion along a boundary the first run created (a no-op) or overwrites
the handler entry written by the first run. -/
theorem addFuel_overwrite :
    ∀ (fuel : Nat) (method : String) (hh1 hh2 : H) (pathLength i : Nat)
      (path : List Char) (params : List String) (t t1 : Node H),
      LabelOk t →
      addFuel method hh1 pathLength fuel i path params t = some t1 →
      addFuel method hh2 pathLength fuel i path params t1 =
        addFuel method hh2 pathLength fuel i path params t := by
  intro fuel
  induction fuel with
  | zero => intro method hh1 hh2 pathLength i path params t t1 hok h; cases h
  | succ f ih =>
    intro method hh1 hh2 pathLength i path params t t1 hok h
    simp only [addFuel] at h ⊢
    by_cases h1 : i < pathLength
    · simp only [if_pos h1] at h ⊢
      by_cases h2 : path[i]? = some ':'
      · simp only [if_pos h2] at h ⊢
        by_cases h3 : i + 1 = pathLength
        · simp only [if_pos h3] at h ⊢
          have ht1 := Option.some.inj h
          subst ht1
          have hokA := insertT_labelOkW hok method (path.take i) skind none none
          have hexA := insertT_exactPathW hok method (path.take i) skind none none
          have hexB := insertT_preserve hexA method
            ((path.take (i+1) ++ path.drop (scanFrom (pathLength - i) path i)).take (i+1))
            pkind
            (some (params ++ [String.mk ((path.take (scanFrom (pathLength - i) path i)).drop (i+1))]))
            (some hh1) hokA
          rw [insertT_noop hexB]
          rw [insertT_overwriteW hokA]
        · simp only [if_neg h3] at h ⊢
          have hokA := insertT_labelOkW hok method (path.take i) skind none none
          have hexA := insertT_exactPathW hok method (path.take i) skind none none
          have hokCA := insertT_labelOkW hokA method
            ((path.take (i+1) ++ path.drop (scanFrom (pathLength - i) path i)).take (i+1))
            pkind (some (params ++ [String.mk ((path.take (scanFrom (pathLength - i) path i)).drop (i+1))])) none
          have hexCA1 := insertT_preserve hexA method
            ((path.take (i+1) ++ path.drop (scanFrom (pathLength - i) path i)).take (i+1))
            pkind (some (params ++ [String.mk ((path.take (scanFrom (pathLength - i) path i)).drop (i+1))])) none hokA
          have hexC := insertT_exactPathW hokA method
            ((path.take (i+1) ++ path.drop (scanFrom (pathLength - i) path i)).take (i+1))
            pkind (some (params ++ [String.mk ((path.take (scanFrom (pathLength - i) path i)).drop (i+1))])) none
          have hex1 := addFuel_preserve f _ _ _ _ _ _ _ _ _ h hokCA hexCA1
          have hex2 := addFuel_preserve f _ _ _ _ _ _ _ _ _ h hokCA hexC
          rw [insertT_noop hex1, insertT_noop hex2]
          exact ih _ _ _ _ _ _ _ _ _ hokCA h
      · simp only [if_neg h2] at h ⊢
        by_cases h4 : path[i]? = some '*'
        · simp only [if_pos h4] at h ⊢
          have ht1 := Option.some.inj h
          subst ht1
          have hokA := insertT_labelOkW hok method (path.take i) skind none none
          have hexA := insertT_exactPathW hok method (path.take i) skind none none
          have hexW := insertT_preserve hexA method (path.take pathLength) akind
            (some (params ++ ["*"])) (some hh1) hokA
          rw [insertT_noop hexW]
          rw [insertT_overwriteW hokA]
        · simp only [if_neg h4] at h ⊢
          exact ih _ _ _ _ _ _ _ _ _ hok h
    · simp only [if_neg h1] at h ⊢
      have ht1 := Option.some.inj h
      subst ht1
      rw [insertT_overwriteW hok]

/-- Router.add level: registering twice with the same method and pattern
equals registering once with the second handler. -/
theorem add_overwrite {t : Node H} (hok : LabelOk t) (method pat : String)
    (hh1 hh2 : H) :
    Router.add (Router.add t method pat hh1) method pat hh2 =
      Router.add t method pat hh2 := by
  unfold Router.add
  have hs := addFuel_isSome (pat.length + 1) method hh1 pat.length 0 pat.data [] t
    (by omega)
  obtain ⟨t1, ht1⟩ := Option.isSome_iff_exists.mp hs
  rw [ht1]
  simp only [Option.getD_some]
  rw [addFuel_overwrite (pat.length + 1) method hh1 hh2 pat.length 0 pat.data [] t t1
    hok ht1]
  obtain ⟨t2, ht2⟩ := Option.isSome_iff_exists.mp
    (addFuel_isSome (pat.length + 1) method hh2 pat.length 0 pat.data [] t (by omega))
  rw [ht2]
  rfl


/-- C9. Registering the same method and pattern twice overwrites the first
registration: starting from the empty router, after add of handler hh1 and
then of handler hh2 under the same method and pattern, the resulting tree
equals the tree of a single registration of hh2, so every lookup with that
method returns either no handler or hh2; the first handler is unreachable
whenever it differs from hh2. Handlers are fully generic (opaque). -/
theorem claim9_overwrite {H : Type} (method pat : String) (hh1 hh2 : H) (q : String) :
    (Router.find (Router.add (Router.add Router.empty method pat hh1) method pat hh2)
      method q).1 = none ∨
    (Router.find (Router.add (Router.add Router.empty method pat hh1) method pat hh2)
      method q).1 = some hh2 := by
  rw [add_overwrite labelOk_empty]
  cases hr : (Router.find (Router.add Router.empty method pat hh2) method q).1 with
  | none => exact Or.inl rfl
  | some hh =>
    right
    have hin := find_mem_handler hr
    cases add_handlerIn hin with
    | inl h3 => exact absurd h3 (handlerIn_empty hh)
    | inr h3 => rw [h3]



end Retes

